import Mathlib

/-
Verification of the `slicer` crate (src/lib.rs): a zero-copy string
scanning cursor over an immutable UTF-8 buffer.

Embedding conventions:
- A Rust `&str` buffer is modelled as a `List Char` of its Unicode scalar
  values; byte offsets are recovered through `utf8Len`, the UTF-8 encoded
  width of each scalar value (mirroring `char::len_utf8`).
- Byte-indexed primitives of `str` (`is_char_boundary`, range slicing,
  `find`, `starts_with`, `match_indices`) are modelled at the scalar level
  with explicit byte arithmetic.  For searching, the first byte-level match
  of one valid UTF-8 string inside another always lies on a character
  boundary (UTF-8 is self-synchronizing), so byte search and the
  character-level search used here agree.
- `StrSlicer` keeps the Rust field names: `string`, `byte_pos`, `tracker`.
- Rust panics of the checked jump are modelled by `Option`.
-/

namespace Slicer

/-- UTF-8 encoded byte width of a Unicode scalar value (Rust `char::len_utf8`). -/
def utf8Len (c : Char) : Nat :=
  if c.toNat < 0x80 then 1
  else if c.toNat < 0x800 then 2
  else if c.toNat < 0x10000 then 3
  else 4

/-- Byte length of the UTF-8 encoding of a buffer (Rust `str::len`). -/
def byteLen : List Char → Nat
  | [] => 0
  | c :: cs => utf8Len c + byteLen cs

/-- Rust `str::is_char_boundary`: `true` at 0 and at offsets that start a
character or equal the byte length; `false` inside a character or past the end. -/
def isCharBoundary : List Char → Nat → Bool
  | _, 0 => true
  | [], _ + 1 => false
  | c :: cs, n + 1 =>
    if n + 1 < utf8Len c then false else isCharBoundary cs (n + 1 - utf8Len c)

/-- Characters of the buffer from byte offset `n` on (the suffix `s[n..]`).
Meaningful when `n` is a character boundary; total otherwise. -/
def dropBytes : List Char → Nat → List Char
  | s, 0 => s
  | [], _ + 1 => []
  | c :: cs, n + 1 => dropBytes cs (n + 1 - utf8Len c)

/-- Characters of the buffer before byte offset `n` (the prefix `s[..n]`).
Meaningful when `n` is a character boundary; total otherwise. -/
def takeBytes : List Char → Nat → List Char
  | _, 0 => []
  | [], _ + 1 => []
  | c :: cs, n + 1 => c :: takeBytes cs (n + 1 - utf8Len c)

/-- The byte-range slice `s[a..b]`. -/
def sliceBytes (s : List Char) (a b : Nat) : List Char :=
  takeBytes (dropBytes s a) (b - a)

/-- Rust `str::starts_with` with a literal pattern: `startsWith s p` holds
when `p` is an initial segment of `s`. -/
def startsWith : List Char → List Char → Bool
  | _, [] => true
  | [], _ :: _ => false
  | c :: cs, d :: ds => c == d && startsWith cs ds

/-- Rust `str::find` with a literal `&str` pattern: byte offset of the first
occurrence of `p` in `s`, scanning character boundaries left to right. -/
def findStr : List Char → List Char → Option Nat
  | [], p => if startsWith [] p then some 0 else none
  | c :: cs, p =>
    if startsWith (c :: cs) p then some 0
    else Option.map (fun k => k + utf8Len c) (findStr cs p)

/-- Rust `str::find` with a character-predicate pattern: byte offset of the
first character satisfying `f`. -/
def findPred : List Char → (Char → Bool) → Option Nat
  | [], _ => none
  | c :: cs, f =>
    if f c then some 0 else Option.map (fun k => k + utf8Len c) (findPred cs f)

/-- Rust `str::find` with a `char` pattern. -/
def findChar (s : List Char) (c : Char) : Option Nat :=
  findPred s (fun d => d == c)

/-- Number of newline characters in a buffer. -/
def countNl (s : List Char) : Nat :=
  (List.filter (fun c => c == '\n') s).length

/-- Byte offsets of the newline characters of `s`, in order: the indices
produced by Rust `str::match_indices` with the pattern `'\n'`. -/
def nlIndices : List Char → List Nat
  | [] => []
  | c :: cs =>
    (if c == '\n' then [0] else []) ++ List.map (fun k => k + utf8Len c) (nlIndices cs)

/-- Rust `str::trim_right_matches` with a character predicate: removes the
longest suffix of characters satisfying `f`. -/
def trimRightMatches (f : Char → Bool) (s : List Char) : List Char :=
  (List.dropWhile f s.reverse).reverse

/-- Rust `char::is_whitespace`: membership in the Unicode White_Space set. -/
def rustIsWhitespace (c : Char) : Bool :=
  (0x09 ≤ c.toNat && c.toNat ≤ 0x0D) || c.toNat == 0x20 || c.toNat == 0x85 ||
  c.toNat == 0xA0 || c.toNat == 0x1680 ||
  (0x2000 ≤ c.toNat && c.toNat ≤ 0x200A) || c.toNat == 0x2028 ||
  c.toNat == 0x2029 || c.toNat == 0x202F || c.toNat == 0x205F || c.toNat == 0x3000

/-- Rust range indexing `s[a..b]` on a `str`, with its panics made explicit:
`none` when the range is inverted, runs past the end of the buffer, or has an
endpoint that is not a character boundary. -/
def rustSliceIndex (s : List Char) (a b : Nat) : Option (List Char) :=
  if a ≤ b ∧ b ≤ byteLen s ∧ isCharBoundary s a = true ∧ isCharBoundary s b = true then
    some (sliceBytes s a b)
  else none

/-- The `Tracker` trait: auxiliary per-cursor state observing every move. -/
class Tracker (τ : Type) where
  Pos : Type
  pos : τ → Pos
  update : τ → List Char → Nat → Nat → τ

/-- The null tracker (`impl Tracker for ()`). -/
instance : Tracker Unit where
  Pos := Unit
  pos _ := ()
  update t _ _ _ := t

/-- `trackers::LineTracker`: line count and byte position stored for the
current line. -/
structure LineTracker where
  lines : Nat
  line_byte_pos : Nat
  deriving Repr, DecidableEq

/-- `LineTracker::new`. -/
def LineTracker.new : LineTracker :=
  { lines := 0, line_byte_pos := 0 }

/-- `<LineTracker as Tracker>::update`.  Forward moves add the newline count
of `string[old..new]`; backward moves either recount from scratch over
`string[0..new]` or subtract the count over `string[new..old]`, depending on
the distance moved.  Each newline seen overwrites `line_byte_pos` with the
index reported by `match_indices`, which is relative to the scanned slice. -/
def lineTrackerUpdate (t : LineTracker) (string : List Char) (old_byte_pos new_byte_pos : Nat) :
    LineTracker :=
  if old_byte_pos < new_byte_pos then
    let idxs := nlIndices (sliceBytes string old_byte_pos new_byte_pos)
    { lines := t.lines + idxs.length,
      line_byte_pos := (idxs.getLast?).getD t.line_byte_pos }
  else if new_byte_pos < old_byte_pos then
    let diff := old_byte_pos - new_byte_pos
    let half_len_to_root := old_byte_pos / 2
    if half_len_to_root < diff then
      let idxs := nlIndices (sliceBytes string 0 new_byte_pos)
      { lines := idxs.length,
        line_byte_pos := (idxs.getLast?).getD t.line_byte_pos }
    else
      let idxs := nlIndices (sliceBytes string new_byte_pos old_byte_pos)
      { lines := t.lines - idxs.length,
        line_byte_pos := (idxs.getLast?).getD t.line_byte_pos }
  else t

/-- `<LineTracker as Tracker>::update` with the panics of the Rust range
indexing `string[a..b]` it performs made explicit as `none`. -/
def lineTrackerUpdateChecked (t : LineTracker) (string : List Char)
    (old_byte_pos new_byte_pos : Nat) : Option LineTracker :=
  if old_byte_pos < new_byte_pos then
    (rustSliceIndex string old_byte_pos new_byte_pos).map (fun seg =>
      let idxs := nlIndices seg
      { lines := t.lines + idxs.length,
        line_byte_pos := (idxs.getLast?).getD t.line_byte_pos })
  else if new_byte_pos < old_byte_pos then
    let diff := old_byte_pos - new_byte_pos
    let half_len_to_root := old_byte_pos / 2
    if half_len_to_root < diff then
      (rustSliceIndex string 0 new_byte_pos).map (fun seg =>
        let idxs := nlIndices seg
        { lines := idxs.length,
          line_byte_pos := (idxs.getLast?).getD t.line_byte_pos })
    else
      (rustSliceIndex string new_byte_pos old_byte_pos).map (fun seg =>
        let idxs := nlIndices seg
        { lines := t.lines - idxs.length,
          line_byte_pos := (idxs.getLast?).getD t.line_byte_pos })
  else some t

instance : Tracker LineTracker where
  Pos := Nat
  pos t := t.lines
  update := lineTrackerUpdate

/-- The `StrSlicer` cursor: buffer reference, current byte offset, tracker. -/
structure StrSlicer (τ : Type) where
  string : List Char
  byte_pos : Nat
  tracker : τ

namespace StrSlicer

variable {τ : Type} [Tracker τ]

/-- `StrSlicer::new`. -/
def new (s : List Char) : StrSlicer Unit :=
  { string := s, byte_pos := 0, tracker := () }

/-- `StrSlicer::with_tracker`. -/
def with_tracker (s : List Char) (t : τ) : StrSlicer τ :=
  { string := s, byte_pos := 0, tracker := t }

/-- `StrSlicer::end_byte_pos`. -/
def end_byte_pos (sl : StrSlicer τ) : Nat :=
  byteLen sl.string

/-- `StrSlicer::is_at_end`. -/
def is_at_end (sl : StrSlicer τ) : Bool :=
  decide (sl.end_byte_pos ≤ sl.byte_pos)

/-- `StrSlicer::as_str`: the whole underlying buffer. -/
def as_str (sl : StrSlicer τ) : List Char :=
  sl.string

/-- `StrSlicer::cut_off`: the remaining tail `string[byte_pos..len]`, or
`none` once at the end. -/
def cut_off (sl : StrSlicer τ) : Option (List Char) :=
  if sl.is_at_end then none
  else some (sliceBytes sl.string sl.byte_pos sl.end_byte_pos)

/-- `StrSlicer::jump_to_unchecked`: the single internal set-position
operation; notifies the tracker, then overwrites the offset. -/
def jump_to_unchecked (sl : StrSlicer τ) (byte_pos : Nat) : StrSlicer τ :=
  { sl with
    tracker := Tracker.update sl.tracker sl.as_str sl.byte_pos byte_pos,
    byte_pos := byte_pos }

/-- `StrSlicer::jump_to`: the checked jump; its two panics (offset out of
bounds, offset not on a character boundary) are modelled as `none`. -/
def jump_to (sl : StrSlicer τ) (byte_pos : Nat) : Option (StrSlicer τ) :=
  if sl.end_byte_pos < byte_pos then none
  else if isCharBoundary sl.string byte_pos then some (sl.jump_to_unchecked byte_pos)
  else none

/-- `StrSlicer::tracker_pos`. -/
def tracker_pos (sl : StrSlicer τ) : Tracker.Pos τ :=
  Tracker.pos sl.tracker

/-- The scanning loop of `StrSlicer::next_char_boundary`, starting at
candidate offset `i`: the first boundary at or after `i` that is strictly
before the end, if any. -/
def nextBoundaryLoop (s : List Char) (i : Nat) : Option Nat :=
  if byteLen s ≤ i then none
  else if isCharBoundary s i then some i
  else nextBoundaryLoop s (i + 1)
termination_by byteLen s - i
decreasing_by omega

/-- `StrSlicer::next_char_boundary`. -/
def next_char_boundary (sl : StrSlicer τ) : Option Nat :=
  nextBoundaryLoop sl.string (sl.byte_pos + 1)

/-- `StrSlicer::advance_char`: move to the next character boundary, or to
the end when none remains. -/
def advance_char (sl : StrSlicer τ) : StrSlicer τ :=
  sl.jump_to_unchecked ((sl.next_char_boundary).getD sl.end_byte_pos)

/-- `StrSlicer::skip_to_end`. -/
def skip_to_end (sl : StrSlicer τ) : StrSlicer τ :=
  sl.jump_to_unchecked sl.end_byte_pos

/-- `StrSlicer::skip_num_chars`: advance by up to `num` characters, stopping
early at the end of the buffer. -/
def skip_num_chars (sl : StrSlicer τ) : Nat → StrSlicer τ
  | 0 => sl
  | num + 1 =>
    let sl' := sl.advance_char
    if sl'.is_at_end then sl' else sl'.skip_num_chars num

/-- `StrSlicer::slice_num_chars`.  Slicing methods return the moved cursor
alongside the Rust return value. -/
def slice_num_chars (sl : StrSlicer τ) (num : Nat) : Option (List Char) × StrSlicer τ :=
  let start_pos := sl.byte_pos
  if sl.is_at_end then (none, sl)
  else
    let sl' := sl.skip_num_chars num
    (some (sliceBytes sl.string start_pos sl'.byte_pos), sl')

end StrSlicer

/-- The closed set of built-in `Pattern` implementations: literal `&str`,
`char`, and character predicate (`FnMut(char) -> bool`, modelled pure). -/
inductive Pat where
  | lit : List Char → Pat
  | chr : Char → Pat
  | pred : (Char → Bool) → Pat

/-- `Pattern::is_next` of each built-in implementation.  The `&str`
implementation tests the remaining tail (`cut_off`); the `char` and
predicate implementations, as written in the source, inspect
`slicer.as_str().chars().next()` — the first character of the WHOLE buffer,
not of the remaining tail. -/
def isNext {τ : Type} [Tracker τ] (pat : Pat) (sl : StrSlicer τ) : Bool :=
  match pat with
  | .lit p =>
    match sl.cut_off with
    | none => false
    | some t => startsWith t p
  | .chr c =>
    match sl.as_str.head? with
    | some d => c == d
    | none => false
  | .pred f =>
    match sl.as_str.head? with
    | some d => f d
    | none => false

/-- The byte offset, relative to the remaining tail, of the first occurrence
of the pattern: the `find` call of each `Pattern::skip_until` implementation. -/
def findPat : Pat → List Char → Option Nat
  | .lit p, s => findStr s p
  | .chr c, s => findChar s c
  | .pred f, s => findPred s f

/-- `Pattern::skip_until` of each built-in implementation: no-op at the end,
jump to the end when the pattern is absent from the tail, and otherwise jump
forward by the relative offset of the first occurrence. -/
def skipUntil {τ : Type} [Tracker τ] (pat : Pat) (sl : StrSlicer τ) : StrSlicer τ :=
  match sl.cut_off with
  | none => sl
  | some t =>
    match findPat pat t with
    | none => sl.skip_to_end
    | some offset => sl.jump_to_unchecked (sl.byte_pos + offset)

/-- `Pattern::skip_over_unchecked` of each built-in implementation: advance
by the byte length of the pattern (literal, `char`) or by one character
(predicate), trusting the caller. -/
def skipOverUnchecked {τ : Type} [Tracker τ] (pat : Pat) (sl : StrSlicer τ) : StrSlicer τ :=
  match pat with
  | .lit p => sl.jump_to_unchecked (sl.byte_pos + byteLen p)
  | .chr c => sl.jump_to_unchecked (sl.byte_pos + utf8Len c)
  | .pred _ => sl.advance_char

namespace StrSlicer

variable {τ : Type} [Tracker τ]

/-- `StrSlicer::is_next`. -/
def is_next (sl : StrSlicer τ) (pat : Pat) : Bool :=
  isNext pat sl

/-- `StrSlicer::skip_over`: advance past the pattern when it is next,
reporting whether it was. -/
def skip_over (sl : StrSlicer τ) (pat : Pat) : Bool × StrSlicer τ :=
  if isNext pat sl then (true, skipOverUnchecked pat sl) else (false, sl)

/-- `StrSlicer::skip_until`. -/
def skip_until (sl : StrSlicer τ) (pat : Pat) : StrSlicer τ :=
  skipUntil pat sl

/-- `StrSlicer::slice_until`. -/
def slice_until (sl : StrSlicer τ) (pat : Pat) : Option (List Char) × StrSlicer τ :=
  let start_pos := sl.byte_pos
  if sl.is_at_end then (none, sl)
  else
    let sl' := skipUntil pat sl
    (some (sliceBytes sl.string start_pos sl'.byte_pos), sl')

/-- `StrSlicer::skip_until_after`: skip until the pattern, then over it
(unchecked) unless the end was reached. -/
def skip_until_after (sl : StrSlicer τ) (pat : Pat) : StrSlicer τ :=
  let sl' := skipUntil pat sl
  if sl'.is_at_end then sl' else skipOverUnchecked pat sl'

/-- `StrSlicer::slice_until_after`. -/
def slice_until_after (sl : StrSlicer τ) (pat : Pat) : Option (List Char) × StrSlicer τ :=
  let start_pos := sl.byte_pos
  if sl.is_at_end then (none, sl)
  else
    let sl' := sl.skip_until_after pat
    (some (sliceBytes sl.string start_pos sl'.byte_pos), sl')

/-- `StrSlicer::skip_whitespace`. -/
def skip_whitespace (sl : StrSlicer τ) : StrSlicer τ :=
  sl.skip_until (Pat.pred (fun c => !rustIsWhitespace c))

/-- `StrSlicer::slice_whitespace`. -/
def slice_whitespace (sl : StrSlicer τ) : Option (List Char) × StrSlicer τ :=
  sl.slice_until (Pat.pred (fun c => !rustIsWhitespace c))

/-- `StrSlicer::skip_non_whitespace`. -/
def skip_non_whitespace (sl : StrSlicer τ) : StrSlicer τ :=
  sl.skip_until (Pat.pred (fun c => rustIsWhitespace c))

/-- `StrSlicer::slice_non_whitespace`. -/
def slice_non_whitespace (sl : StrSlicer τ) : Option (List Char) × StrSlicer τ :=
  sl.slice_until (Pat.pred (fun c => rustIsWhitespace c))

/-- `StrSlicer::skip_line`. -/
def skip_line (sl : StrSlicer τ) : StrSlicer τ :=
  sl.skip_until_after (Pat.chr '\n')

/-- `StrSlicer::slice_line`: slice until after a newline, then strip every
trailing newline and carriage-return character from the returned slice. -/
def slice_line (sl : StrSlicer τ) : Option (List Char) × StrSlicer τ :=
  let r := sl.slice_until_after (Pat.chr '\n')
  (r.1.map (trimRightMatches (fun c => c == '\n' || c == '\r')), r.2)

/-- `StrSlicer::slice_to_end`. -/
def slice_to_end (sl : StrSlicer τ) : Option (List Char) × StrSlicer τ :=
  let start_pos := sl.byte_pos
  if sl.is_at_end then (none, sl)
  else
    let sl' := sl.skip_to_end
    (some (sliceBytes sl.string start_pos sl'.byte_pos), sl')

end StrSlicer

/-- The first element produced by the Rust standard function `str::lines`,
the comparison target named by the source documentation of `slice_line`:
the content before the first newline (or the whole string when it has no
newline), with one carriage return removed when it immediately precedes
that newline.  `str::lines` strips at most the line terminator, never other
trailing characters. -/
def linesFirstLine (s : List Char) : List Char :=
  match findChar s '\n' with
  | none => s
  | some k =>
    let content := takeBytes s k
    if content.getLast? = some '\r' then content.dropLast else content

/-- Cursor states with the built-in `LineTracker` whose position has only
ever been set (through the single internal set-position operation) to valid
offsets: UTF-8 character boundaries, which include the at-end offset and
never exceed the buffer length. -/
inductive LineReach : StrSlicer LineTracker → Prop where
  | init (s : List Char) : LineReach (StrSlicer.with_tracker s LineTracker.new)
  | step (sl : StrSlicer LineTracker) (p : Nat) (h : LineReach sl)
      (hp : isCharBoundary sl.string p = true) :
      LineReach (sl.jump_to_unchecked p)

/-! ### Byte arithmetic lemmas -/

theorem utf8Len_pos (c : Char) : 1 ≤ utf8Len c := by
  unfold utf8Len
  split
  · omega
  · split
    · omega
    · split <;> omega

theorem byteLen_cons (c : Char) (cs : List Char) :
    byteLen (c :: cs) = utf8Len c + byteLen cs := rfl

theorem byteLen_append (xs ys : List Char) :
    byteLen (xs ++ ys) = byteLen xs + byteLen ys := by
  induction xs with
  | nil => simp [byteLen]
  | cons c cs ih => simp [byteLen_cons, ih]; omega

theorem byteLen_eq_zero {s : List Char} (h : byteLen s = 0) : s = [] := by
  cases s with
  | nil => rfl
  | cons c cs => have := utf8Len_pos c; simp [byteLen_cons] at h; omega

theorem isCharBoundary_zero (s : List Char) : isCharBoundary s 0 = true := by
  cases s <;> rfl

theorem isCharBoundary_cons_of_le {c : Char} {cs : List Char} {n : Nat}
    (h : utf8Len c ≤ n) :
    isCharBoundary (c :: cs) n = isCharBoundary cs (n - utf8Len c) := by
  have hc := utf8Len_pos c
  cases n with
  | zero => omega
  | succ m =>
    simp only [isCharBoundary]
    rw [if_neg (by omega)]

theorem isCharBoundary_append (xs ys : List Char) (n : Nat) :
    isCharBoundary (xs ++ ys) (byteLen xs + n) = isCharBoundary ys n := by
  induction xs with
  | nil => simp [byteLen]
  | cons c cs ih =>
    have hc := utf8Len_pos c
    rw [List.cons_append, byteLen_cons,
        isCharBoundary_cons_of_le (by omega : utf8Len c ≤ utf8Len c + byteLen cs + n)]
    rw [Nat.add_assoc, Nat.add_sub_cancel_left, ih]

theorem isCharBoundary_byteLen (s : List Char) :
    isCharBoundary s (byteLen s) = true := by
  have h := isCharBoundary_append s [] 0
  simpa [isCharBoundary_zero] using h

theorem isCharBoundary_le {s : List Char} {n : Nat}
    (h : isCharBoundary s n = true) : n ≤ byteLen s := by
  induction s generalizing n with
  | nil =>
    cases n with
    | zero => simp [byteLen]
    | succ m => simp [isCharBoundary] at h
  | cons c cs ih =>
    have hc := utf8Len_pos c
    cases n with
    | zero => omega
    | succ m =>
      simp only [isCharBoundary] at h
      by_cases hlt : m + 1 < utf8Len c
      · rw [if_pos hlt] at h; cases h
      · rw [if_neg hlt] at h
        have := ih h
        rw [byteLen_cons]
        omega

theorem isCharBoundary_split {s : List Char} {n : Nat}
    (h : isCharBoundary s n = true) :
    ∃ xs ys, s = xs ++ ys ∧ byteLen xs = n := by
  induction s generalizing n with
  | nil =>
    cases n with
    | zero => exact ⟨[], [], rfl, rfl⟩
    | succ m => simp [isCharBoundary] at h
  | cons c cs ih =>
    cases n with
    | zero => exact ⟨[], c :: cs, rfl, rfl⟩
    | succ m =>
      simp only [isCharBoundary] at h
      by_cases hlt : m + 1 < utf8Len c
      · rw [if_pos hlt] at h; cases h
      · rw [if_neg hlt] at h
        obtain ⟨xs, ys, hs, hb⟩ := ih h
        refine ⟨c :: xs, ys, by rw [List.cons_append, hs], ?_⟩
        rw [byteLen_cons, hb]
        omega

theorem dropBytes_zero (s : List Char) : dropBytes s 0 = s := by
  cases s <;> rfl

theorem dropBytes_cons_of_le {c : Char} {cs : List Char} {n : Nat}
    (h : utf8Len c ≤ n) :
    dropBytes (c :: cs) n = dropBytes cs (n - utf8Len c) := by
  have hc := utf8Len_pos c
  cases n with
  | zero => omega
  | succ m => simp only [dropBytes]

theorem dropBytes_append (xs ys : List Char) (n : Nat) :
    dropBytes (xs ++ ys) (byteLen xs + n) = dropBytes ys n := by
  induction xs with
  | nil => simp [byteLen, dropBytes_zero]
  | cons c cs ih =>
    have hc := utf8Len_pos c
    rw [List.cons_append, byteLen_cons,
        dropBytes_cons_of_le (by omega : utf8Len c ≤ utf8Len c + byteLen cs + n)]
    rw [Nat.add_assoc, Nat.add_sub_cancel_left, ih]

theorem takeBytes_zero (s : List Char) : takeBytes s 0 = [] := by
  cases s <;> rfl

theorem takeBytes_cons_of_le {c : Char} {cs : List Char} {n : Nat}
    (h : utf8Len c ≤ n) :
    takeBytes (c :: cs) n = c :: takeBytes cs (n - utf8Len c) := by
  have hc := utf8Len_pos c
  cases n with
  | zero => omega
  | succ m => simp only [takeBytes]

theorem takeBytes_append (xs ys : List Char) (n : Nat) :
    takeBytes (xs ++ ys) (byteLen xs + n) = xs ++ takeBytes ys n := by
  induction xs with
  | nil => simp [byteLen]
  | cons c cs ih =>
    have hc := utf8Len_pos c
    rw [List.cons_append, byteLen_cons,
        takeBytes_cons_of_le (by omega : utf8Len c ≤ utf8Len c + byteLen cs + n)]
    rw [Nat.add_assoc, Nat.add_sub_cancel_left, ih, List.cons_append]

theorem takeBytes_all {s : List Char} {n : Nat} (h : byteLen s ≤ n) :
    takeBytes s n = s := by
  induction s generalizing n with
  | nil => cases n <;> rfl
  | cons c cs ih =>
    have hc := utf8Len_pos c
    rw [byteLen_cons] at h
    rw [takeBytes_cons_of_le (by omega)]
    rw [ih (by omega)]

/-! ### Search and newline-count lemmas -/

theorem startsWith_append (p r : List Char) : startsWith (p ++ r) p = true := by
  induction p with
  | nil => cases r <;> rfl
  | cons c cs ih => simp [startsWith, ih]

theorem startsWith_self (p : List Char) : startsWith p p = true := by
  have h := startsWith_append p []
  simpa using h

theorem startsWith_ex {s p : List Char} (h : startsWith s p = true) :
    ∃ r, s = p ++ r := by
  induction p generalizing s with
  | nil => exact ⟨s, rfl⟩
  | cons d ds ih =>
    cases s with
    | nil => simp [startsWith] at h
    | cons c cs =>
      simp only [startsWith, Bool.and_eq_true, beq_iff_eq] at h
      obtain ⟨r, hr⟩ := ih h.2
      exact ⟨r, by rw [h.1, hr, List.cons_append]⟩

theorem startsWith_nil_right {p : List Char} (h : startsWith [] p = true) :
    p = [] := by
  cases p with
  | nil => rfl
  | cons d ds => simp [startsWith] at h

theorem findStr_some {s p : List Char} {k : Nat} (h : findStr s p = some k) :
    ∃ pre suf, s = pre ++ suf ∧ byteLen pre = k ∧ startsWith suf p = true := by
  induction s generalizing k with
  | nil =>
    simp only [findStr] at h
    by_cases hp : startsWith [] p = true
    · rw [if_pos hp] at h
      cases h
      exact ⟨[], [], rfl, rfl, hp⟩
    · rw [if_neg hp] at h; cases h
  | cons c cs ih =>
    simp only [findStr] at h
    by_cases hp : startsWith (c :: cs) p = true
    · rw [if_pos hp] at h
      cases h
      exact ⟨[], c :: cs, rfl, rfl, hp⟩
    · rw [if_neg hp] at h
      simp only [Option.map_eq_some'] at h
      obtain ⟨k', hk', hplus⟩ := h
      obtain ⟨pre, suf, hs, hb, hsw⟩ := ih hk'
      refine ⟨c :: pre, suf, by rw [List.cons_append, hs], ?_, hsw⟩
      rw [byteLen_cons, hb]
      omega

theorem findPred_some {s : List Char} {f : Char → Bool} {k : Nat}
    (h : findPred s f = some k) :
    ∃ pre d suf, s = pre ++ d :: suf ∧ byteLen pre = k ∧ f d = true := by
  induction s generalizing k with
  | nil => simp [findPred] at h
  | cons c cs ih =>
    simp only [findPred] at h
    by_cases hc : f c = true
    · rw [if_pos hc] at h
      cases h
      exact ⟨[], c, cs, rfl, rfl, hc⟩
    · rw [if_neg hc] at h
      simp only [Option.map_eq_some'] at h
      obtain ⟨k', hk', hplus⟩ := h
      obtain ⟨pre, d, suf, hs, hb, hd⟩ := ih hk'
      refine ⟨c :: pre, d, suf, by rw [List.cons_append, hs], ?_, hd⟩
      rw [byteLen_cons, hb]
      omega

theorem countNl_append (xs ys : List Char) :
    countNl (xs ++ ys) = countNl xs + countNl ys := by
  simp [countNl, List.filter_append]

theorem nlIndices_length (s : List Char) : (nlIndices s).length = countNl s := by
  induction s with
  | nil => rfl
  | cons c cs ih =>
    by_cases hc : c == '\n'
    · simp [nlIndices, countNl, List.filter_cons, hc] at ih ⊢
      omega
    · simp [nlIndices, countNl, List.filter_cons, hc] at ih ⊢
      exact ih

/-- `dropBytes` description of `sliceBytes` to the end, at a boundary. -/
theorem sliceBytes_to_end {s : List Char} {a : Nat}
    (hb : isCharBoundary s a = true) :
    sliceBytes s a (byteLen s) = dropBytes s a := by
  obtain ⟨A, B, rfl, hA⟩ := isCharBoundary_split hb
  have hd : dropBytes (A ++ B) a = B := by
    have := dropBytes_append A B 0
    rw [hA] at this
    simpa [dropBytes_zero] using this
  rw [sliceBytes, hd, byteLen_append, hA]
  exact takeBytes_all (by omega)

/-! ### Slicer-level structural lemmas -/

namespace StrSlicer

variable {τ : Type} [Tracker τ]

theorem byte_pos_jump (sl : StrSlicer τ) (p : Nat) :
    (sl.jump_to_unchecked p).byte_pos = p := rfl

theorem string_jump (sl : StrSlicer τ) (p : Nat) :
    (sl.jump_to_unchecked p).string = sl.string := rfl

theorem is_at_end_false_iff (sl : StrSlicer τ) :
    sl.is_at_end = false ↔ sl.byte_pos < byteLen sl.string := by
  simp [is_at_end, end_byte_pos]

theorem is_at_end_true_iff (sl : StrSlicer τ) :
    sl.is_at_end = true ↔ byteLen sl.string ≤ sl.byte_pos := by
  simp [is_at_end, end_byte_pos]

/-- At a boundary position not at the end, `cut_off` is the character tail. -/
theorem cut_off_eq_drop {sl : StrSlicer τ}
    (hb : isCharBoundary sl.string sl.byte_pos = true)
    (hne : sl.is_at_end = false) :
    sl.cut_off = some (dropBytes sl.string sl.byte_pos) := by
  rw [cut_off, hne]
  simp only [Bool.false_eq_true, if_false, end_byte_pos]
  rw [sliceBytes_to_end hb]

end StrSlicer

theorem findStr_nil_pat (s : List Char) : findStr s [] = some 0 := by
  cases s <;> simp [findStr, startsWith]

theorem byteLen_pos_of_ne_nil {s : List Char} (h : s ≠ []) : 1 ≤ byteLen s := by
  cases s with
  | nil => exact absurd rfl h
  | cons c cs => have := utf8Len_pos c; rw [byteLen_cons]; omega

theorem takeBytes_of_split {A B : List Char} :
    takeBytes (A ++ B) (byteLen A) = A := by
  have := takeBytes_append A B 0
  simpa [takeBytes_zero] using this

theorem dropBytes_of_split {A B : List Char} :
    dropBytes (A ++ B) (byteLen A) = B := by
  have := dropBytes_append A B 0
  simpa [dropBytes_zero] using this

/-- Newline counts over byte prefixes compose across an interior boundary. -/
theorem countNl_take_split {s : List Char} {a b : Nat} (hab : a ≤ b)
    (ha : isCharBoundary s a = true) :
    countNl (takeBytes s b) = countNl (takeBytes s a) + countNl (sliceBytes s a b) := by
  obtain ⟨A, B, rfl, hA⟩ := isCharBoundary_split ha
  have h1 : takeBytes (A ++ B) a = A := by
    rw [← hA]; exact takeBytes_of_split
  have hb2 : b = byteLen A + (b - a) := by omega
  have h2 : takeBytes (A ++ B) b = A ++ takeBytes B (b - a) := by
    nth_rewrite 1 [hb2]
    rw [takeBytes_append]
  have h3 : sliceBytes (A ++ B) a b = takeBytes B (b - a) := by
    rw [sliceBytes, ← hA, dropBytes_of_split, hA]
  rw [h1, h2, h3, countNl_append]

/-- The line count maintained by `LineTracker::update` stays equal to the
number of newlines before the cursor, for moves between boundary offsets. -/
theorem lineTrackerUpdate_lines {t : LineTracker} {s : List Char} {a b : Nat}
    (ha : isCharBoundary s a = true) (hb : isCharBoundary s b = true)
    (ht : t.lines = countNl (takeBytes s a)) :
    (lineTrackerUpdate t s a b).lines = countNl (takeBytes s b) := by
  unfold lineTrackerUpdate
  by_cases h1 : a < b
  · rw [if_pos h1]
    simp only [nlIndices_length]
    rw [ht, ← countNl_take_split (Nat.le_of_lt h1) ha]
  · rw [if_neg h1]
    by_cases h2 : b < a
    · rw [if_pos h2]
      by_cases h3 : a / 2 < a - b
      · rw [if_pos h3]
        simp only [nlIndices_length]
        rw [sliceBytes, dropBytes_zero, Nat.sub_zero]
      · rw [if_neg h3]
        simp only [nlIndices_length]
        rw [ht, countNl_take_split (Nat.le_of_lt h2) hb]
        omega
    · rw [if_neg h2]
      have hab : a = b := by omega
      subst hab
      exact ht

/-- A boundary at the byte length of a leading segment, inside a triple
concatenation. -/
theorem boundary_after_take {A pre suf : List Char} :
    isCharBoundary (A ++ (pre ++ suf)) (byteLen A + byteLen pre) = true := by
  rw [← List.append_assoc]
  have h := isCharBoundary_append (A ++ pre) suf 0
  rw [byteLen_append] at h
  simpa [isCharBoundary_zero] using h

/-- The suffix after dropping the two leading segments of a triple
concatenation. -/
theorem drop_after_take {A pre suf : List Char} :
    dropBytes (A ++ (pre ++ suf)) (byteLen A + byteLen pre) = suf := by
  rw [← List.append_assoc, ← byteLen_append, dropBytes_of_split]

/-- Structure extracted from a literal-pattern hit in the remaining tail of
a cursor standing on a character boundary. -/
theorem tail_find_split (τ : Type) [Tracker τ] {sl : StrSlicer τ}
    {t p : List Char} {k : Nat}
    (hb : isCharBoundary sl.string sl.byte_pos = true)
    (ht : sl.cut_off = some t) (hf : findStr t p = some k) :
    ∃ A pre suf,
      sl.string = A ++ (pre ++ suf) ∧
      byteLen A = sl.byte_pos ∧
      t = pre ++ suf ∧
      byteLen pre = k ∧
      startsWith suf p = true ∧
      t = dropBytes sl.string sl.byte_pos ∧
      sl.byte_pos + k < byteLen sl.string := by
  have hne : sl.is_at_end = false := by
    cases h : sl.is_at_end with
    | false => rfl
    | true =>
      have hc : sl.cut_off = none := by
        unfold StrSlicer.cut_off
        rw [h]
        rfl
      rw [hc] at ht
      cases ht
  have htd : t = dropBytes sl.string sl.byte_pos := by
    have hcd := StrSlicer.cut_off_eq_drop hb hne
    rw [hcd] at ht
    exact (Option.some.inj ht).symm
  obtain ⟨A, B, hsplit, hA⟩ := isCharBoundary_split hb
  have hB : dropBytes sl.string sl.byte_pos = B := by
    rw [hsplit, ← hA, dropBytes_of_split]
  have htB : t = B := by rw [htd, hB]
  obtain ⟨pre, suf, hts, hpre, hsw⟩ := findStr_some hf
  have hposlt : sl.byte_pos < byteLen sl.string :=
    (StrSlicer.is_at_end_false_iff sl).mp hne
  have hlen : byteLen sl.string = sl.byte_pos + byteLen B := by
    rw [hsplit, byteLen_append, hA]
  have hB1 : 1 ≤ byteLen B := by omega
  have hsufne : suf ≠ [] := by
    intro hsufnil
    have hpnil : p = [] := startsWith_nil_right (hsufnil ▸ hsw)
    rw [hpnil, findStr_nil_pat] at hf
    have hk0 : k = 0 := by cases hf; rfl
    rw [hk0] at hpre
    have hprenil : pre = [] := byteLen_eq_zero hpre
    rw [hprenil, hsufnil] at hts
    simp only [List.append_nil] at hts
    rw [hts] at htB
    rw [← htB] at hB1
    simp [byteLen] at hB1
  have hsuf1 : 1 ≤ byteLen suf := byteLen_pos_of_ne_nil hsufne
  have htlen : byteLen B = k + byteLen suf := by
    rw [← htB, hts, byteLen_append, hpre]
  have hstr : sl.string = A ++ (pre ++ suf) := by
    rw [hsplit, ← htB, hts]
  exact ⟨A, pre, suf, hstr, hA, hts, hpre, hsw, htd, by omega⟩

/-! ### Claim theorems -/

/-- Claim C1, refuted by the code: the safe API does not keep the byte
offset within the buffer.  The `char` implementation of `Pattern::is_next`
consults the first character of the WHOLE buffer instead of the remaining
tail, so on the buffer `ab` the safe trace `skip_to_end` followed by
`skip_over` with the character pattern `a` reports the pattern as next and
moves the offset to 3, strictly beyond the buffer length 2 and off every
character boundary. -/
theorem skip_over_char_moves_offset_past_end :
    (((StrSlicer.new ['a', 'b']).skip_to_end).skip_over (Pat.chr 'a')).2.byte_pos = 3 ∧
    byteLen ['a', 'b'] = 2 ∧
    isCharBoundary ['a', 'b'] 3 = false := by decide

/-- Claim C4, refuted by the code: `jump_to_unchecked` beyond the buffer
length is not identical to `skip_to_end` — it stores the out-of-range
offset 5 while `skip_to_end` stores the length 2 — and with the built-in
`LineTracker` attached it is not failure-free either: the update slices
`string[0..5]` on a buffer of length 2, which is an out-of-bounds Rust
range indexing (a panic, `none` in the checked model). -/
theorem jump_to_unchecked_beyond_end_divergence :
    ((StrSlicer.new ['a', 'b']).jump_to_unchecked 5).byte_pos = 5 ∧
    ((StrSlicer.new ['a', 'b']).skip_to_end).byte_pos = 2 ∧
    ((StrSlicer.new ['a', 'b']).jump_to_unchecked 5).byte_pos ≠
      ((StrSlicer.new ['a', 'b']).skip_to_end).byte_pos ∧
    lineTrackerUpdateChecked LineTracker.new ['a', 'b'] 0 5 = none := by decide

/-- Claim C8, refuted by the code: on a forward move the tracker stores in
`line_byte_pos` the `match_indices` index of the last newline, which is
relative to the scanned slice `string[O..N]`, not the offset within the
whole buffer.  Moving from offset 2 to offset 4 over the buffer with
newlines at absolute offsets 1 and 3 records 1, not 3. -/
theorem line_byte_pos_stores_relative_index :
    (((StrSlicer.with_tracker ['a', '\n', 'b', '\n', 'c']
        LineTracker.new).jump_to_unchecked 2).jump_to_unchecked 4).tracker.line_byte_pos = 1 ∧
    nlIndices (sliceBytes ['a', '\n', 'b', '\n', 'c'] 2 4) = [1] ∧
    nlIndices (takeBytes ['a', '\n', 'b', '\n', 'c'] 4) = [1, 3] ∧
    (1 : Nat) ≠ 3 := by decide

/-- Claim C9, refuted by the code: `slice_line` trims with
`trim_right_matches`, which strips EVERY trailing carriage return and
newline, while the standard line-splitting semantics it claims to match
strip at most the single line terminator.  On the buffer with the line
content `a` followed by two carriage returns and a newline, the code
returns `a` whereas line splitting yields the carriage return preserved. -/
theorem slice_line_trims_beyond_line_terminator :
    ((StrSlicer.new ['a', '\r', '\r', '\n', 'b']).slice_line).1 = some ['a'] ∧
    linesFirstLine ['a', '\r', '\r', '\n', 'b'] = ['a', '\r'] ∧
    ((StrSlicer.new ['a', '\r', '\r', '\n', 'b']).slice_line).1 ≠
      some (linesFirstLine ['a', '\r', '\r', '\n', 'b']) := by decide

/-- Claim C2, counterexample: `slice_line` does not return the raw span
from the pre-call offset to the post-call offset.  On the buffer `a`
newline `b`, the call moves the offset from 0 to 2 but returns the span
with the newline stripped. -/
theorem slice_line_returns_less_than_span :
    ((StrSlicer.new ['a', '\n', 'b']).slice_line).1 = some ['a'] ∧
    ((StrSlicer.new ['a', '\n', 'b']).slice_line).2.byte_pos = 2 ∧
    (StrSlicer.new ['a', '\n', 'b']).byte_pos = 0 ∧
    sliceBytes ['a', '\n', 'b'] 0 2 = ['a', '\n'] ∧
    ((StrSlicer.new ['a', '\n', 'b']).slice_line).1 ≠
      some (sliceBytes ['a', '\n', 'b'] 0 2) := by decide

/-- Claim C3: the checked position-setting operation `jump_to(k)` fails
(the Rust panic, modelled as `none`) precisely when `k` exceeds the buffer
length or `k` is not a UTF-8 code-point boundary of the buffer; when it
does not fail, the offset read afterwards is exactly `k`. -/
theorem jump_to_fails_iff_invalid (τ : Type) [Tracker τ] (sl : StrSlicer τ) (k : Nat) :
    (sl.jump_to k = none ↔
      (byteLen sl.string < k ∨ isCharBoundary sl.string k = false)) ∧
    (sl.jump_to k = none ∨
      Option.map (fun s => s.byte_pos) (sl.jump_to k) = some k) := by
  unfold StrSlicer.jump_to
  by_cases h1 : sl.end_byte_pos < k
  · rw [if_pos h1]
    simp only [StrSlicer.end_byte_pos] at h1
    constructor
    · simp [h1]
    · exact Or.inl rfl
  · rw [if_neg h1]
    simp only [StrSlicer.end_byte_pos] at h1
    cases h2 : isCharBoundary sl.string k with
    | false =>
      rw [if_neg (by simp [h2])]
      constructor
      · simp
      · exact Or.inl rfl
    | true =>
      rw [if_pos (by simp [h2])]
      constructor
      · simp [h2]
        omega
      · exact Or.inr rfl

/-- Claim C5: the literal-pattern presence test `is_next(P)` is true
precisely when the cursor is not at the end and the remaining tail starts
with `P`; in particular a tail exactly equal to `P` (a match flush against
the end of the buffer) is reported as present. -/
theorem is_next_lit_iff_tail_starts_with (τ : Type) [Tracker τ]
    (sl : StrSlicer τ) (p : List Char) :
    (isNext (Pat.lit p) sl = true ↔
      sl.is_at_end = false ∧
      startsWith (sliceBytes sl.string sl.byte_pos (byteLen sl.string)) p = true) ∧
    (sl.cut_off = some p → isNext (Pat.lit p) sl = true) := by
  constructor
  · unfold isNext StrSlicer.cut_off
    cases h : sl.is_at_end with
    | true => simp [h]
    | false => simp [h, StrSlicer.end_byte_pos]
  · intro hc
    unfold isNext
    rw [hc]
    exact startsWith_self p

/-- Claim C5, witness: on the buffer `ab` at offset 0 the tail equals the
pattern `ab` exactly, and the presence test reports true. -/
theorem is_next_lit_iff_tail_starts_with_witness :
    isNext (Pat.lit ['a', 'b']) (StrSlicer.new ['a', 'b']) = true :=
  (is_next_lit_iff_tail_starts_with Unit (StrSlicer.new ['a', 'b']) ['a', 'b']).2
    (by decide)

/-- Claim C2, amended: every slice-family operation returns `none` and
leaves the cursor untouched when it begins at the end; otherwise it moves
and returns the span of the buffer from the pre-call offset to the
post-call offset — except `slice_line`, which returns that span with every
trailing newline and carriage-return character stripped from its tail. -/
theorem slice_ops_none_or_span (τ : Type) [Tracker τ] (sl : StrSlicer τ)
    (num : Nat) (pat : Pat) :
    (sl.is_at_end = true →
      sl.slice_num_chars num = (none, sl) ∧
      sl.slice_until pat = (none, sl) ∧
      sl.slice_until_after pat = (none, sl) ∧
      sl.slice_whitespace = (none, sl) ∧
      sl.slice_non_whitespace = (none, sl) ∧
      sl.slice_line = (none, sl) ∧
      sl.slice_to_end = (none, sl)) ∧
    (sl.is_at_end = false →
      (sl.slice_num_chars num).1 =
        some (sliceBytes sl.string sl.byte_pos (sl.slice_num_chars num).2.byte_pos) ∧
      (sl.slice_until pat).1 =
        some (sliceBytes sl.string sl.byte_pos (sl.slice_until pat).2.byte_pos) ∧
      (sl.slice_until_after pat).1 =
        some (sliceBytes sl.string sl.byte_pos (sl.slice_until_after pat).2.byte_pos) ∧
      (sl.slice_whitespace).1 =
        some (sliceBytes sl.string sl.byte_pos (sl.slice_whitespace).2.byte_pos) ∧
      (sl.slice_non_whitespace).1 =
        some (sliceBytes sl.string sl.byte_pos (sl.slice_non_whitespace).2.byte_pos) ∧
      (sl.slice_line).1 =
        some (trimRightMatches (fun c => c == '\n' || c == '\r')
          (sliceBytes sl.string sl.byte_pos (sl.slice_line).2.byte_pos)) ∧
      (sl.slice_to_end).1 =
        some (sliceBytes sl.string sl.byte_pos (sl.slice_to_end).2.byte_pos)) := by
  constructor
  · intro h
    refine ⟨?_, ?_, ?_, ?_, ?_, ?_, ?_⟩ <;>
      simp [StrSlicer.slice_num_chars, StrSlicer.slice_until,
        StrSlicer.slice_until_after, StrSlicer.slice_whitespace,
        StrSlicer.slice_non_whitespace, StrSlicer.slice_line,
        StrSlicer.slice_to_end, h]
  · intro h
    refine ⟨?_, ?_, ?_, ?_, ?_, ?_, ?_⟩ <;>
      simp [StrSlicer.slice_num_chars, StrSlicer.slice_until,
        StrSlicer.slice_until_after, StrSlicer.slice_whitespace,
        StrSlicer.slice_non_whitespace, StrSlicer.slice_line,
        StrSlicer.slice_to_end, h]

/-- Claim C2, witness: the policy applied at the end of an empty buffer and
on a one-character buffer. -/
theorem slice_ops_none_or_span_witness :
    (StrSlicer.new ([] : List Char)).slice_to_end = (none, StrSlicer.new []) ∧
    ((StrSlicer.new ['a']).slice_to_end).1 =
      some (sliceBytes ['a'] 0 (((StrSlicer.new ['a']).slice_to_end).2.byte_pos)) := by
  constructor
  · exact ((slice_ops_none_or_span Unit (StrSlicer.new []) 0 (Pat.chr 'a')).1
      (by decide)).2.2.2.2.2.2
  · exact ((slice_ops_none_or_span Unit (StrSlicer.new ['a']) 0 (Pat.chr 'a')).2
      (by decide)).2.2.2.2.2.2

/-- Claim C6: for every pattern, `skip_until` is a no-op at the end, moves
the cursor to the end when the pattern does not occur in the remaining
tail, and advances forward by exactly the relative byte offset of the first
occurrence otherwise; consequently, for a literal pattern occurring in the
tail, `slice_until` returns exactly the prefix before the first occurrence
and the pattern is next afterwards. -/
theorem skip_until_spec (τ : Type) [Tracker τ] (sl : StrSlicer τ) (pat : Pat)
    (t p : List Char) (k : Nat) :
    (sl.is_at_end = true → sl.skip_until pat = sl) ∧
    (sl.cut_off = some t → findPat pat t = none →
      (sl.skip_until pat).byte_pos = byteLen sl.string) ∧
    (sl.cut_off = some t → findPat pat t = some k →
      (sl.skip_until pat).byte_pos = sl.byte_pos + k) ∧
    (isCharBoundary sl.string sl.byte_pos = true → sl.cut_off = some t →
      findStr t p = some k →
      (sl.slice_until (Pat.lit p)).1 = some (takeBytes t k) ∧
      isNext (Pat.lit p) ((sl.slice_until (Pat.lit p)).2) = true) := by
  refine ⟨?_, ?_, ?_, ?_⟩
  · intro h
    have hc : sl.cut_off = none := by
      unfold StrSlicer.cut_off
      rw [h]
      rfl
    unfold StrSlicer.skip_until skipUntil
    rw [hc]
  · intro ht hf
    unfold StrSlicer.skip_until
    simp only [skipUntil, ht, hf]
    rfl
  · intro ht hf
    unfold StrSlicer.skip_until
    simp only [skipUntil, ht, hf]
    rfl
  · intro hb ht hf
    obtain ⟨A, pre, suf, hstr, hA, hts, hpre, hsw, htd, hklt⟩ :=
      tail_find_split τ hb ht hf
    have hne : sl.is_at_end = false := by
      rw [StrSlicer.is_at_end_false_iff]
      omega
    have hfp : findPat (Pat.lit p) t = some k := hf
    have hsk : skipUntil (Pat.lit p) sl = sl.jump_to_unchecked (sl.byte_pos + k) := by
      simp only [skipUntil, ht, hfp]
    have hslice : sl.slice_until (Pat.lit p) =
        (some (sliceBytes sl.string sl.byte_pos (sl.byte_pos + k)),
          sl.jump_to_unchecked (sl.byte_pos + k)) := by
      unfold StrSlicer.slice_until
      simp only [hne, Bool.false_eq_true, if_false, hsk]
      rfl
    constructor
    · rw [hslice]
      show some (sliceBytes sl.string sl.byte_pos (sl.byte_pos + k)) =
        some (takeBytes t k)
      congr 1
      rw [sliceBytes, Nat.add_sub_cancel_left, ← htd]
    · rw [hslice]
      show isNext (Pat.lit p) (sl.jump_to_unchecked (sl.byte_pos + k)) = true
      have hb2 : isCharBoundary (sl.jump_to_unchecked (sl.byte_pos + k)).string
          (sl.jump_to_unchecked (sl.byte_pos + k)).byte_pos = true := by
        show isCharBoundary sl.string (sl.byte_pos + k) = true
        rw [hstr, ← hA, ← hpre]
        exact boundary_after_take
      have hne2 : (sl.jump_to_unchecked (sl.byte_pos + k)).is_at_end = false := by
        rw [StrSlicer.is_at_end_false_iff]
        show sl.byte_pos + k < byteLen sl.string
        exact hklt
      have hcut2 : (sl.jump_to_unchecked (sl.byte_pos + k)).cut_off = some suf := by
        rw [StrSlicer.cut_off_eq_drop hb2 hne2]
        congr 1
        show dropBytes sl.string (sl.byte_pos + k) = suf
        rw [hstr, ← hA, ← hpre]
        exact drop_after_take
      simp only [isNext, hcut2]
      exact hsw

/-- Claim C6, witness: the no-op at the end, movement to the end on a miss,
the exact advance on a hit, and the literal corollary, each at a concrete
input. -/
theorem skip_until_spec_witness :
    (((StrSlicer.new ['a']).skip_to_end).skip_until (Pat.chr 'x') =
      (StrSlicer.new ['a']).skip_to_end) ∧
    ((StrSlicer.new ['a']).skip_until (Pat.chr 'x')).byte_pos = byteLen ['a'] ∧
    ((StrSlicer.new ['a', 'b']).skip_until (Pat.chr 'b')).byte_pos = 0 + 1 ∧
    ((StrSlicer.new ['a', 'b', 'c']).slice_until (Pat.lit ['b'])).1 =
      some (takeBytes ['a', 'b', 'c'] 1) ∧
    isNext (Pat.lit ['b']) (((StrSlicer.new ['a', 'b', 'c']).slice_until (Pat.lit ['b'])).2) =
      true := by
  refine ⟨?_, ?_, ?_, ?_, ?_⟩
  · exact (skip_until_spec Unit ((StrSlicer.new ['a']).skip_to_end) (Pat.chr 'x')
      [] [] 0).1 (by decide)
  · exact (skip_until_spec Unit (StrSlicer.new ['a']) (Pat.chr 'x')
      ['a'] [] 0).2.1 (by decide) (by decide)
  · exact (skip_until_spec Unit (StrSlicer.new ['a', 'b']) (Pat.chr 'b')
      ['a', 'b'] [] 1).2.2.1 (by decide) (by decide)
  · exact ((skip_until_spec Unit (StrSlicer.new ['a', 'b', 'c']) (Pat.lit ['b'])
      ['a', 'b', 'c'] ['b'] 1).2.2.2 (by decide) (by decide) (by decide)).1
  · exact ((skip_until_spec Unit (StrSlicer.new ['a', 'b', 'c']) (Pat.lit ['b'])
      ['a', 'b', 'c'] ['b'] 1).2.2.2 (by decide) (by decide) (by decide)).2

/-- Claim C7: for a literal pattern occurring in the remaining tail,
`slice_until_after` yields a substring whose byte length is that of the
`slice_until` substring plus the byte length of the pattern, and afterwards
the offset sits immediately past that first occurrence. -/
theorem slice_until_after_length_spec (τ : Type) [Tracker τ] (sl : StrSlicer τ)
    (t p : List Char) (k : Nat)
    (hb : isCharBoundary sl.string sl.byte_pos = true)
    (ht : sl.cut_off = some t) (hf : findStr t p = some k) :
    Option.map byteLen ((sl.slice_until_after (Pat.lit p)).1) = some (k + byteLen p) ∧
    Option.map byteLen ((sl.slice_until (Pat.lit p)).1) = some k ∧
    (sl.slice_until_after (Pat.lit p)).2.byte_pos = sl.byte_pos + k + byteLen p := by
  obtain ⟨A, pre, suf, hstr, hA, hts, hpre, hsw, htd, hklt⟩ :=
    tail_find_split τ hb ht hf
  obtain ⟨r, hr⟩ := startsWith_ex hsw
  have hne : sl.is_at_end = false := by
    rw [StrSlicer.is_at_end_false_iff]
    omega
  have hfp : findPat (Pat.lit p) t = some k := hf
  have hsk : skipUntil (Pat.lit p) sl = sl.jump_to_unchecked (sl.byte_pos + k) := by
    simp only [skipUntil, ht, hfp]
  have hne2 : (sl.jump_to_unchecked (sl.byte_pos + k)).is_at_end = false := by
    rw [StrSlicer.is_at_end_false_iff]
    show sl.byte_pos + k < byteLen sl.string
    exact hklt
  have hafter : sl.skip_until_after (Pat.lit p) =
      (sl.jump_to_unchecked (sl.byte_pos + k)).jump_to_unchecked
        (sl.byte_pos + k + byteLen p) := by
    unfold StrSlicer.skip_until_after
    rw [hsk]
    simp only [hne2, Bool.false_eq_true, if_false]
    rfl
  have hsliceu : sl.slice_until (Pat.lit p) =
      (some (sliceBytes sl.string sl.byte_pos (sl.byte_pos + k)),
        sl.jump_to_unchecked (sl.byte_pos + k)) := by
    unfold StrSlicer.slice_until
    simp only [hne, Bool.false_eq_true, if_false, hsk]
    rfl
  have hsliceua : sl.slice_until_after (Pat.lit p) =
      (some (sliceBytes sl.string sl.byte_pos (sl.byte_pos + k + byteLen p)),
        (sl.jump_to_unchecked (sl.byte_pos + k)).jump_to_unchecked
          (sl.byte_pos + k + byteLen p)) := by
    unfold StrSlicer.slice_until_after
    simp only [hne, Bool.false_eq_true, if_false, hafter]
    rfl
  have hvalu : sliceBytes sl.string sl.byte_pos (sl.byte_pos + k) = pre := by
    rw [sliceBytes, Nat.add_sub_cancel_left, ← htd, hts, ← hpre, takeBytes_of_split]
  have harith : sl.byte_pos + k + byteLen p - sl.byte_pos = k + byteLen p := by omega
  have hvalua : sliceBytes sl.string sl.byte_pos (sl.byte_pos + k + byteLen p) =
      pre ++ p := by
    rw [sliceBytes, harith, ← htd, hts, hr, ← hpre, ← byteLen_append,
      ← List.append_assoc, takeBytes_of_split]
  refine ⟨?_, ?_, ?_⟩
  · rw [hsliceua]
    show some (byteLen (sliceBytes sl.string sl.byte_pos (sl.byte_pos + k + byteLen p))) =
      some (k + byteLen p)
    rw [hvalua, byteLen_append, hpre]
  · rw [hsliceu]
    show some (byteLen (sliceBytes sl.string sl.byte_pos (sl.byte_pos + k))) = some k
    rw [hvalu, hpre]
  · rw [hsliceua]
    rfl

/-- Claim C7, witness: on the buffer `abc` with the literal pattern `b`,
the two slices have byte lengths 2 and 1 and the cursor ends at offset 2. -/
theorem slice_until_after_length_spec_witness :
    Option.map byteLen (((StrSlicer.new ['a', 'b', 'c']).slice_until_after
        (Pat.lit ['b'])).1) = some (1 + byteLen ['b']) ∧
    Option.map byteLen (((StrSlicer.new ['a', 'b', 'c']).slice_until
        (Pat.lit ['b'])).1) = some 1 ∧
    ((StrSlicer.new ['a', 'b', 'c']).slice_until_after (Pat.lit ['b'])).2.byte_pos =
      (StrSlicer.new ['a', 'b', 'c']).byte_pos + 1 + byteLen ['b'] :=
  slice_until_after_length_spec Unit (StrSlicer.new ['a', 'b', 'c'])
    ['a', 'b', 'c'] ['b'] 1 (by decide) (by decide) (by decide)

/-- Claim C10: for a cursor carrying the built-in `LineTracker` whose
position has only ever been set to valid offsets, the `lines` field always
equals the number of newline characters in the buffer before the current
offset, and `tracker_pos` returns that count; the invariant holds through
the forward scan and through both backward recomputation strategies of the
tracker update. -/
theorem line_tracker_counts_newlines_before_cursor (sl : StrSlicer LineTracker)
    (h : LineReach sl) :
    sl.tracker.lines = countNl (takeBytes sl.string sl.byte_pos) ∧
    sl.tracker_pos = countNl (takeBytes sl.string sl.byte_pos) := by
  have main : isCharBoundary sl.string sl.byte_pos = true ∧
      sl.tracker.lines = countNl (takeBytes sl.string sl.byte_pos) := by
    induction h with
    | init s =>
      constructor
      · exact isCharBoundary_zero s
      · show LineTracker.new.lines = countNl (takeBytes s 0)
        rw [takeBytes_zero]
        rfl
    | step sl p hr hp ih =>
      constructor
      · exact hp
      · show (lineTrackerUpdate sl.tracker sl.string sl.byte_pos p).lines =
          countNl (takeBytes sl.string p)
        exact lineTrackerUpdate_lines ih.1 hp ih.2
  exact ⟨main.2, main.2⟩

/-- Claim C10, witness: jumping to offset 2 on the buffer `a` newline `b`
leaves the tracker counting exactly the one newline before the cursor. -/
theorem line_tracker_counts_newlines_before_cursor_witness :
    ((StrSlicer.with_tracker ['a', '\n', 'b'] LineTracker.new).jump_to_unchecked
      2).tracker.lines = 1 := by
  have h := line_tracker_counts_newlines_before_cursor
    ((StrSlicer.with_tracker ['a', '\n', 'b'] LineTracker.new).jump_to_unchecked 2)
    (LineReach.step _ 2 (LineReach.init _) (by decide))
  rw [h.1]
  decide

end Slicer
